import Mathlib

/-!
Verification development for the XTTS inference module (`TTS/tts/models/xtts.py`).

The definitions below are shallow embeddings of the functions of that file:
waveforms and latent sequences become Lean lists, Python slices become
explicit take/drop combinations with Python index normalization, torch
elementwise products and sums become `List.zipWith`, and the external heavy
numeric collaborators (the GPT transformer, the HiFi-GAN vocoder) are passed
in as function parameters, exactly as the orchestration code treats them as
black boxes.  Theorems about the claims of the specification follow the
definitions.
-/

/-- Python index normalization for slicing: a negative index counts from the
end (clamped at 0), a nonnegative index is clamped at the length. -/
def pyIdx (len : Nat) (i : Int) : Nat :=
  if i < 0 then (i + len).toNat else min i.toNat len

/-- Python slice `l[a:b]` over a list, with Python index normalization. -/
def pySlice {α : Type} (l : List α) (a b : Int) : List α :=
  (l.take (pyIdx l.length b)).drop (pyIdx l.length a)

/-- `torch.linspace(a, b, steps)`: `steps` evenly spaced values from `a` to
`b`, endpoints included; a single step yields `[a]`. -/
def linspace (a b : ℚ) (steps : Nat) : List ℚ :=
  if steps = 1 then [a]
  else (List.range steps).map (fun (j : Nat) => a + (b - a) * (j : ℚ) / ((steps : ℚ) - 1))

/-- `pad_or_truncate(t, length)` from `xtts.py`: ensure the sequence has the
given length by zero padding at the end or clipping on the left slice. -/
def pad_or_truncate (t : List ℚ) (length : Nat) : List ℚ :=
  let tp := t.take length
  if t.length = length then t
  else if t.length < length then t ++ List.replicate (length - t.length) 0
  else tp

/-- The fixed chunk size used by `get_diffusion_cond_latents`. -/
def CHUNK_SIZE : Nat := 102400

/-- `math.ceil(a / b)` for natural `a` and positive natural `b`. -/
def ceil_div (a b : Nat) : Nat := (a + b - 1) / b

/-- The chunking performed by `get_diffusion_cond_latents`: the 24kHz audio is
cut into `CHUNK_SIZE`-sample slices and each slice is padded or truncated to
exactly `CHUNK_SIZE` samples before mel extraction. -/
def diffusion_chunks (audio_24k : List ℚ) : List (List ℚ) :=
  (List.range (ceil_div audio_24k.length CHUNK_SIZE)).map
    (fun chunk =>
      pad_or_truncate ((audio_24k.take ((chunk + 1) * CHUNK_SIZE)).drop (chunk * CHUNK_SIZE))
        CHUNK_SIZE)

/-- The silence code checked by the truncation loop in `Xtts.inference`. -/
def silence_token : Nat := 83

/-- The scan of the silence-truncation loop in `Xtts.inference`: walk the
codes left to right with position `k` and a counter `ctokens` of consecutive
silence codes; the first time the counter exceeds 8 report the position and
stop.  The second component is the final counter value when no truncation
fires, which lets theorems speak about runs crossing a boundary. -/
def silence_scan_run : List Nat → Nat → Nat → Option Nat × Nat
  | [], _, ctokens => (none, ctokens)
  | c :: rest, k, ctokens =>
      let ctokens := if c = silence_token then ctokens + 1 else 0
      if 8 < ctokens then (some k, ctokens) else silence_scan_run rest (k + 1) ctokens

/-- The trailing-silence truncation applied to the teacher-forced latents in
`Xtts.inference`: when the scan fires at position `k`, the latents are cut to
their first `k` entries; otherwise they are returned untouched. -/
def apply_silence_truncation {α : Type} (gpt_codes : List Nat) (gpt_latents : List α) : List α :=
  match (silence_scan_run gpt_codes 0 0).1 with
  | some k => gpt_latents.take k
  | none => gpt_latents

/-- The message of the token-length assertion in `Xtts.inference`. -/
def xtts_max_text_tokens_msg : String :=
  " ❗ XTTS can only generate text with a maximum of 400 tokens."

/-- The default `XttsArgs.gpt_max_text_tokens` configuration value. -/
def gpt_max_text_tokens_default : Nat := 402

/-- The non-streaming `Xtts.inference` pipeline after tokenization.  The
external networks are parameters: `gpt_generate` produces the audio code
sequence, `gpt_teacher_forced` re-runs the transformer over the codes to get
the latents, `hifigan_decoder` is the vocoder forward pass (with the speaker
embedding folded in).  The token-length assertion fires before any network
call; the `decoder` backend selector is accepted exactly as in the source,
which never reads it. -/
def xtts_inference {α β : Type} (gpt_max_text_tokens : Nat)
    (gpt_generate : List Nat → List Nat)
    (gpt_teacher_forced : List Nat → List Nat → List α)
    (hifigan_decoder : List α → β)
    (decoder : String) (text_tokens : List Nat) : Except String β :=
  if text_tokens.length < gpt_max_text_tokens then
    let gpt_codes := gpt_generate text_tokens
    let gpt_latents := gpt_teacher_forced text_tokens gpt_codes
    Except.ok (hifigan_decoder (apply_silence_truncation gpt_codes gpt_latents))
  else Except.error xtts_max_text_tokens_msg

/-- The `audio_path` argument of `get_conditioning_latents`: either a plain
string or a Python list of path strings. -/
inductive AudioPathArg where
  | str (s : String)
  | paths (l : List String)

/-- The argument normalization at the top of `get_conditioning_latents`:
a non-list argument is passed to `list()`, which explodes a string into its
characters; a list is used as given. -/
def as_audio_path_list : AudioPathArg → List String
  | .paths l => l
  | .str s => s.data.map (fun c => String.mk [c])

/-- `Xtts.handle_chunks`: format one streaming chunk.  `wav_gen` is the decode
of all accumulated latents so far, `wav_gen_prev` the previous decode,
`wav_overlap` the held-back tail of the previous decode.  Returns the emitted
chunk and the new `(wav_gen_prev, wav_overlap)` pair.  The in-place tensor
assignment on the first `overlap_len` samples is rendered functionally; the
source's view aliasing has no observable effect because the held-back tail is
taken from a region the assignment never touches whenever the decode grew by
at least `overlap_len` samples, which the theorems assume. -/
def handle_chunks (wav_gen : List ℚ) (wav_gen_prev wav_overlap : Option (List ℚ))
    (overlap_len : Nat) : List ℚ × List ℚ × List ℚ :=
  let wav_chunk := pySlice wav_gen 0 (-(overlap_len : Int))
  let wav_chunk :=
    match wav_gen_prev with
    | some prev => pySlice wav_gen ((prev.length : Int) - (overlap_len : Int)) (-(overlap_len : Int))
    | none => wav_chunk
  let wav_chunk :=
    match wav_overlap with
    | some ovl =>
        let crossfade_wav :=
          List.zipWith (· * ·) (wav_chunk.take overlap_len) (linspace 0 1 overlap_len)
        List.zipWith (· + ·) (List.zipWith (· * ·) ovl (linspace 1 0 overlap_len)) crossfade_wav
          ++ wav_chunk.drop overlap_len
    | none => wav_chunk
  (wav_chunk, wav_gen, pySlice wav_gen (-(overlap_len : Int)) (wav_gen.length : Int))

/-- The chunk-emission loop of `Xtts.inference_stream`: each entry of `wavs`
is the vocoder decode of all latents accumulated up to that yield point; the
state threaded through `handle_chunks` starts at `(None, None)`. -/
def run_stream (overlap_len : Nat) :
    List (List ℚ) → Option (List ℚ) → Option (List ℚ) → List (List ℚ)
  | [], _, _ => []
  | w :: ws, prev, ovl =>
      let r := handle_chunks w prev ovl overlap_len
      r.1 :: run_stream overlap_len ws (some r.2.1) (some r.2.2)

/-- The cumulative latent buffers of `inference_stream`: `all_latents` is
never cleared, so the `i`-th decode sees the join of the first `i + 1` latent
chunks. -/
def latent_prefix_joins {α : Type} (chunks : List (List α)) : List (List α) :=
  (List.range chunks.length).map (fun i => (chunks.take (i + 1)).flatten)

/-- `Xtts.inference_stream` as a chunk producer: decode every cumulative
latent buffer with the direct vocoder backend and stitch with
`handle_chunks`. -/
def inference_stream_chunks {α : Type} (decode : List α → List ℚ)
    (latent_chunks : List (List α)) (overlap_wav_len : Nat) : List (List ℚ) :=
  run_stream overlap_wav_len ((latent_prefix_joins latent_chunks).map decode) none none

/-- The linear crossfade of one overlap region, written from the words of the
specification: the previous decode's held-back tail faded from 1 down to 0,
summed sample-wise with the next decode's samples over the same region faded
from 0 up to 1. -/
def spec_blend (prev cur : List ℚ) (overlap_len : Nat) : List ℚ :=
  List.zipWith (· + ·)
    (List.zipWith (· * ·) (prev.drop (prev.length - overlap_len)) (linspace 1 0 overlap_len))
    (List.zipWith (· * ·) ((cur.take prev.length).drop (prev.length - overlap_len))
      (linspace 0 1 overlap_len))

/-- The tail of the specification's reconstructed signal after the first
chunk: alternate overlap blends with the matching non-overlap regions of the
full decode `W`. -/
def spec_recon_go (W : List ℚ) (overlap_len : Nat) : List ℚ → List (List ℚ) → List ℚ
  | _, [] => []
  | prev, c :: rest =>
      spec_blend prev c overlap_len ++ ((W.take (c.length - overlap_len)).drop prev.length)
        ++ spec_recon_go W overlap_len c rest

/-- The signal the specification says streaming must reconstruct: non-overlap
regions taken verbatim from the full decode `W`, overlap regions the linear
blend of the adjacent decodes. -/
def spec_reconstruction (W : List ℚ) (ws : List (List ℚ)) (overlap_len : Nat) : List ℚ :=
  match ws with
  | [] => []
  | w1 :: rest => W.take (w1.length - overlap_len) ++ spec_recon_go W overlap_len w1 rest

/-- One streaming step as the theorems constrain it: the next decode extends
the previous one and grows by at least the overlap length. -/
def pref_step (overlap_len : Nat) (a b : List ℚ) : Prop :=
  b.take a.length = a ∧ a.length + overlap_len ≤ b.length

instance (n : Nat) (a b : List ℚ) : Decidable (pref_step n a b) :=
  inferInstanceAs (Decidable (b.take a.length = a ∧ a.length + n ≤ b.length))

/-- The length-only part of `pref_step`, enough for the holdback accounting. -/
def len_step (overlap_len : Nat) (a b : List ℚ) : Prop :=
  a.length + overlap_len ≤ b.length

instance (n : Nat) (a b : List ℚ) : Decidable (len_step n a b) :=
  inferInstanceAs (Decidable (a.length + n ≤ b.length))

/-- Python dict lookup on an insertion-ordered association list. -/
def pyGet {V : Type} : List (String × V) → String → Option V
  | [], _ => none
  | (k, v) :: d, q => if k = q then some v else pyGet d q

/-- Python dict assignment `d[k] = v`: update in place when the key exists,
append otherwise. -/
def pySet {V : Type} (d : List (String × V)) (k : String) (v : V) : List (String × V) :=
  if (pyGet d k).isSome then d.map (fun p => if p.1 = k then (k, v) else p) else d ++ [(k, v)]

/-- Python dict deletion `del d[k]`.  Python raises `KeyError` when the key is
absent; the loop below only deletes keys it has just looked up or written, and
the theorems' hypotheses keep that invariant, so plain removal is faithful. -/
def pyDel {V : Type} (d : List (String × V)) (k : String) : List (String × V) :=
  d.filter (fun p => p.1 ≠ k)

/-- `key.replace("xtts.", "")`: remove the non-overlapping occurrences of
`"xtts."` left to right, in one pass, as Python `str.replace` does. -/
def strip_xtts_chars : List Char → List Char
  | 'x' :: 't' :: 't' :: 's' :: '.' :: rest => strip_xtts_chars rest
  | c :: rest => c :: strip_xtts_chars rest
  | [] => []

/-- `key.replace("xtts.", "")` on strings. -/
def strip_xtts (s : String) : String := String.mk (strip_xtts_chars s.data)

/-- `key.startswith("xtts.")`. -/
def starts_with_xtts (s : String) : Bool :=
  match s.data with
  | 'x' :: 't' :: 't' :: 's' :: '.' :: _ => true
  | _ => false

/-- `key.split(".")[0]`: the characters before the first dot. -/
def first_component (s : String) : String := String.mk (s.data.takeWhile (fun c => c ≠ '.'))

/-- The training-only submodule keys discarded by the checkpoint loader. -/
def ignore_keys : List String :=
  ["torch_mel_spectrogram_style_encoder", "torch_mel_spectrogram_dvae", "dvae"]

/-- One iteration of the loop in `get_compatible_checkpoint_state_dict` for a
snapshot key: strip the legacy wrapper occurrences of `"xtts."` when the key
starts with it (writing the value under the new key and deleting the old one),
then delete the key when its first dot component is a training-only
submodule. -/
def ckpt_process_key {V : Type} (checkpoint : List (String × V)) (key : String) :
    List (String × V) :=
  let st :=
    if starts_with_xtts key then
      match pyGet checkpoint key with
      | some v =>
          let new_key := strip_xtts key
          (pyDel (pySet checkpoint new_key v) key, new_key)
      | none => (checkpoint, key)
    else (checkpoint, key)
  if ignore_keys.contains (first_component st.2) then pyDel st.1 st.2 else st.1

/-- `Xtts.get_compatible_checkpoint_state_dict` restricted to its key
adaptation: iterate the loop body over a snapshot of the original keys. -/
def get_compatible_checkpoint_state_dict {V : Type} (checkpoint : List (String × V)) :
    List (String × V) :=
  (checkpoint.map Prod.fst).foldl ckpt_process_key checkpoint

/-- The per-key renaming the loop implements, as a function. -/
def ckpt_key_transform (k : String) : String :=
  if starts_with_xtts k then strip_xtts k else k

/-- The new names produced by renaming the `"xtts."`-prefixed keys of a
checkpoint. -/
def ckpt_new_keys {V : Type} (checkpoint : List (String × V)) : List String :=
  checkpoint.filterMap (fun p => if starts_with_xtts p.1 then some (strip_xtts p.1) else none)

/-- The loop's effect as a pure transformation over the entries: rename each
key, drop the entries whose renamed first dot component is training-only. -/
def ckpt_spec_transform {V : Type} (checkpoint : List (String × V)) : List (String × V) :=
  checkpoint.filterMap (fun p =>
    if ignore_keys.contains (first_component (ckpt_key_transform p.1)) then none
    else some (ckpt_key_transform p.1, p.2))

/-- Key-collision freedom for the checkpoint loop relative to an accumulator
of already-processed entries: the pending original keys are distinct, the
renamed keys they will produce are distinct, and no renamed key coincides with
a pending original key or with a processed key.  Real checkpoints satisfy
this: either all module keys carry the legacy `"xtts."` wrapper or none do. -/
def CkptKeysOK {V : Type} (todo acc : List (String × V)) : Prop :=
  (todo.map Prod.fst).Nodup ∧
  (ckpt_new_keys todo).Nodup ∧
  (∀ s ∈ todo.map Prod.fst, s ∉ ckpt_new_keys todo) ∧
  (∀ s ∈ acc.map Prod.fst, s ∉ todo.map Prod.fst) ∧
  (∀ s ∈ acc.map Prod.fst, s ∉ ckpt_new_keys todo)

/-- Observable trace of the `load_state_dict` retry logic in
`Xtts.load_checkpoint`. -/
structure LoadTrace where
  load_attempts : Nat
  reinit_before_retry : Bool
  error_raised : Bool

/-- The `try/except` around `load_state_dict` in `Xtts.load_checkpoint`.
`load_ok b` tells whether a load attempt succeeds when the GPT inference
caches have (`b = true`) or have not been re-initialized since entry; the
first attempt runs before any re-initialization, the single retry runs after
`init_gpt_for_inference` exactly when `eval` is set.  A retry failure is not
caught. -/
def load_checkpoint_retry (eval : Bool) (load_ok : Bool → Bool) : LoadTrace :=
  if load_ok false then ⟨1, false, false⟩
  else if load_ok eval then ⟨2, eval, false⟩
  else ⟨2, eval, true⟩

/-! ### Theorems -/

/-- C9: `get_conditioning_latents` converts a non-list `audio_path` with
`list()`, so a string of `n` characters becomes `n` one-character path
strings, while a list argument is used as the clip list directly. -/
theorem audio_path_string_explodes : ∀ (s : String) (l : List String),
    as_audio_path_list (.str s) = s.data.map (fun c => String.mk [c]) ∧
    (as_audio_path_list (.str s)).length = s.length ∧
    as_audio_path_list (.paths l) = l := by
  intro s l
  refine ⟨rfl, ?_, rfl⟩
  simp only [as_audio_path_list, List.length_map]
  rfl

/-- C2 (supporting evidence): the `decoder` backend selector passed to
`Xtts.inference` is never read; the produced waveform is the HiFi-GAN decode
whatever string is passed, in particular for `"diffusion"`. -/
theorem inference_decoder_arg_ignored : ∀ {α β : Type} (gpt_max_text_tokens : Nat)
    (gpt_generate : List Nat → List Nat)
    (gpt_teacher_forced : List Nat → List Nat → List α)
    (hifigan_decoder : List α → β) (text_tokens : List Nat),
    xtts_inference gpt_max_text_tokens gpt_generate gpt_teacher_forced hifigan_decoder
        "diffusion" text_tokens
      = xtts_inference gpt_max_text_tokens gpt_generate gpt_teacher_forced hifigan_decoder
        "hifigan" text_tokens :=
  fun _ _ _ _ _ => rfl

/-- C5: the token-length assertion of `Xtts.inference` fires before any
network call exactly when the token count reaches `gpt_max_text_tokens`: at or
above the bound the call fails with the assertion message, one below the bound
it proceeds to generation and decoding. -/
theorem inference_token_length_gate : ∀ {α β : Type} (gpt_max_text_tokens : Nat)
    (gpt_generate : List Nat → List Nat)
    (gpt_teacher_forced : List Nat → List Nat → List α)
    (hifigan_decoder : List α → β) (decoder : String) (text_tokens : List Nat),
    (gpt_max_text_tokens ≤ text_tokens.length →
      xtts_inference gpt_max_text_tokens gpt_generate gpt_teacher_forced hifigan_decoder
          decoder text_tokens = Except.error xtts_max_text_tokens_msg) ∧
    (text_tokens.length = gpt_max_text_tokens →
      xtts_inference gpt_max_text_tokens gpt_generate gpt_teacher_forced hifigan_decoder
          decoder text_tokens = Except.error xtts_max_text_tokens_msg) ∧
    (text_tokens.length + 1 = gpt_max_text_tokens →
      xtts_inference gpt_max_text_tokens gpt_generate gpt_teacher_forced hifigan_decoder
          decoder text_tokens
        = Except.ok (hifigan_decoder (apply_silence_truncation (gpt_generate text_tokens)
            (gpt_teacher_forced text_tokens (gpt_generate text_tokens))))) := by
  intro α β maxTok gen fwd voc dec toks
  refine ⟨fun h => ?_, fun h => ?_, fun h => ?_⟩
  · unfold xtts_inference; rw [if_neg (by omega)]
  · unfold xtts_inference; rw [if_neg (by omega)]
  · unfold xtts_inference; rw [if_pos (by omega)]

/-- Witness for C5 at concrete inputs: two tokens fail against a bound of 2
(equality) and of 1 (above), and proceed against a bound of 3 (one below). -/
theorem inference_token_length_gate_witness :
    ((1 : Nat) ≤ ([1, 2] : List Nat).length ∧
      xtts_inference 1 (fun _ => []) (fun _ _ => ([] : List Nat)) (fun _ => (0 : Nat))
        "hifigan" [1, 2] = Except.error xtts_max_text_tokens_msg) ∧
    (([1, 2] : List Nat).length = 2 ∧
      xtts_inference 2 (fun _ => []) (fun _ _ => ([] : List Nat)) (fun _ => (0 : Nat))
        "hifigan" [1, 2] = Except.error xtts_max_text_tokens_msg) ∧
    (([1, 2] : List Nat).length + 1 = 3 ∧
      xtts_inference 3 (fun _ => []) (fun _ _ => ([] : List Nat)) (fun _ => (0 : Nat))
        "hifigan" [1, 2] = Except.ok 0) :=
  ⟨⟨by decide, (inference_token_length_gate 1 _ _ _ _ [1, 2]).1 (by decide)⟩,
   ⟨rfl, (inference_token_length_gate 2 _ _ _ _ [1, 2]).2.1 rfl⟩,
   ⟨rfl, (inference_token_length_gate 3 _ _ _ _ [1, 2]).2.2 rfl⟩⟩

/-- C8 counterexample: with `eval = false` a failing first load is retried
without any re-initialization of the GPT inference caches, so the claim's
unconditional "re-initializes and retries" is false on this call. -/
theorem load_retry_no_reinit_without_eval :
    (load_checkpoint_retry false (fun _ => false)).load_attempts = 2 ∧
    (load_checkpoint_retry false (fun _ => false)).reinit_before_retry = false :=
  ⟨rfl, rfl⟩

/-- C8 (amended): `load_checkpoint` makes at most two load attempts; when the
first attempt raises it re-initializes the GPT inference caches exactly when
`eval` is set and retries exactly once, and an exception of the retry is not
caught. -/
theorem load_checkpoint_retry_spec : ∀ (eval : Bool) (load_ok : Bool → Bool),
    (load_checkpoint_retry eval load_ok).load_attempts ≤ 2 ∧
    (load_ok false = true →
      (load_checkpoint_retry eval load_ok).load_attempts = 1 ∧
      (load_checkpoint_retry eval load_ok).reinit_before_retry = false ∧
      (load_checkpoint_retry eval load_ok).error_raised = false) ∧
    (load_ok false = false →
      (load_checkpoint_retry eval load_ok).load_attempts = 2 ∧
      (load_checkpoint_retry eval load_ok).reinit_before_retry = eval ∧
      (load_checkpoint_retry eval load_ok).error_raised = !(load_ok eval)) := by
  intro ev load_ok
  rcases h0 : load_ok false <;> rcases h1 : load_ok ev <;>
    simp [load_checkpoint_retry, h0, h1]

/-- Witness for C8 at concrete inputs: a load that always fails under
`eval = true`, and a load that succeeds at once. -/
theorem load_checkpoint_retry_spec_witness :
    ((fun _ : Bool => false) false = false ∧
      (load_checkpoint_retry true (fun _ => false)).load_attempts = 2 ∧
      (load_checkpoint_retry true (fun _ => false)).reinit_before_retry = true ∧
      (load_checkpoint_retry true (fun _ => false)).error_raised
        = !((fun _ : Bool => false) true)) ∧
    ((fun _ : Bool => true) false = true ∧
      (load_checkpoint_retry false (fun _ => true)).load_attempts = 1) :=
  ⟨⟨rfl, (load_checkpoint_retry_spec true (fun _ => false)).2.2 rfl⟩,
   ⟨rfl, ((load_checkpoint_retry_spec false (fun _ => true)).2.1 rfl).1⟩⟩

/-- `pad_or_truncate` always returns the requested length. -/
theorem pad_or_truncate_length (t : List ℚ) (L : Nat) : (pad_or_truncate t L).length = L := by
  simp only [pad_or_truncate]
  split
  · assumption
  · split
    · simp only [List.length_append, List.length_replicate]; omega
    · simp only [List.length_take]; omega

/-- `pad_or_truncate` zero-pads whenever the input does not exceed the
requested length. -/
theorem pad_or_truncate_of_le (t : List ℚ) (L : Nat) (h : t.length ≤ L) :
    pad_or_truncate t L = t ++ List.replicate (L - t.length) 0 := by
  simp only [pad_or_truncate]
  rcases eq_or_lt_of_le h with h1 | h1
  · rw [if_pos h1, h1]; simp
  · rw [if_neg (by omega), if_pos h1]

/-- The `i`-th diffusion-conditioning chunk is the padded/truncated `i`-th
`CHUNK_SIZE` slice of the 24kHz audio. -/
theorem diffusion_chunks_getD (a : List ℚ) (i : Nat)
    (hi : i < (diffusion_chunks a).length) :
    (diffusion_chunks a).getD i []
      = pad_or_truncate ((a.take ((i + 1) * CHUNK_SIZE)).drop (i * CHUNK_SIZE)) CHUNK_SIZE := by
  simp only [diffusion_chunks, List.length_map, List.length_range] at hi
  simp [diffusion_chunks, List.getD, List.getElem?_map, List.getElem?_range, hi]

/-- C6: `pad_or_truncate` returns exactly the requested last-dimension length,
returning the input unchanged at equal length, zero-padding at the end when
shorter, left-slicing when longer; consequently every chunk fed to the
diffusion-conditioning mel extraction has exactly `CHUNK_SIZE` samples, a
partial final chunk being zero-padded up to the size, never truncated
below it. -/
theorem pad_or_truncate_spec : ∀ (t : List ℚ) (L : Nat) (a : List ℚ) (i : Nat),
    (pad_or_truncate t L).length = L ∧
    (t.length = L → pad_or_truncate t L = t) ∧
    (t.length < L → pad_or_truncate t L = t ++ List.replicate (L - t.length) 0) ∧
    (L < t.length → pad_or_truncate t L = t.take L) ∧
    (i < (diffusion_chunks a).length →
      ((diffusion_chunks a).getD i []).length = CHUNK_SIZE ∧
      ∃ s : List ℚ, s.length ≤ CHUNK_SIZE ∧
        (diffusion_chunks a).getD i [] = s ++ List.replicate (CHUNK_SIZE - s.length) 0) := by
  intro t L a i
  refine ⟨pad_or_truncate_length t L, fun h => ?_, fun h => pad_or_truncate_of_le t L h.le,
    fun h => ?_, fun hi => ?_⟩
  · simp only [pad_or_truncate]; rw [if_pos h]
  · simp only [pad_or_truncate]; rw [if_neg (by omega), if_neg (by omega)]
  · have hsl : ((a.take ((i + 1) * CHUNK_SIZE)).drop (i * CHUNK_SIZE)).length ≤ CHUNK_SIZE := by
      simp only [List.length_drop, List.length_take]
      have : (i + 1) * CHUNK_SIZE = i * CHUNK_SIZE + CHUNK_SIZE := by ring
      omega
    rw [diffusion_chunks_getD a i hi]
    exact ⟨pad_or_truncate_length _ _, ⟨_, hsl, pad_or_truncate_of_le _ _ hsl⟩⟩

/-- Witness for C6 at concrete inputs: a short tensor is zero-padded, a long
one is left-sliced, and a one-sample audio yields one full-size chunk. -/
theorem pad_or_truncate_spec_witness :
    (([(1 : ℚ), 2] : List ℚ).length < 4 ∧
      pad_or_truncate [(1 : ℚ), 2] 4 = [(1 : ℚ), 2] ++ List.replicate 2 0) ∧
    ((2 : Nat) < ([(1 : ℚ), 2, 3] : List ℚ).length ∧
      pad_or_truncate [(1 : ℚ), 2, 3] 2 = ([(1 : ℚ), 2, 3] : List ℚ).take 2) ∧
    ((0 : Nat) < (diffusion_chunks [(1 : ℚ)]).length ∧
      ((diffusion_chunks [(1 : ℚ)]).getD 0 []).length = CHUNK_SIZE) := by
  have h0 : (0 : Nat) < (diffusion_chunks [(1 : ℚ)]).length := by
    simp only [diffusion_chunks, List.length_map, List.length_range]
    norm_num [ceil_div, CHUNK_SIZE]
  exact ⟨⟨by norm_num, (pad_or_truncate_spec [(1 : ℚ), 2] 4 [] 0).2.2.1 (by norm_num)⟩,
    ⟨by norm_num, (pad_or_truncate_spec [(1 : ℚ), 2, 3] 2 [] 0).2.2.2.1 (by norm_num)⟩,
    ⟨h0, ((pad_or_truncate_spec [] 0 [(1 : ℚ)] 0).2.2.2.2 h0).1⟩⟩

/-- Unfolding of one silence-scan step. -/
theorem silence_scan_run_cons (c : Nat) (rest : List Nat) (k ct : Nat) :
    silence_scan_run (c :: rest) k ct =
      if 8 < (if c = silence_token then ct + 1 else 0) then
        (some k, if c = silence_token then ct + 1 else 0)
      else silence_scan_run rest (k + 1) (if c = silence_token then ct + 1 else 0) := rfl

/-- A scan that survives a left part continues into the right part at the
shifted position with the carried counter. -/
theorem silence_scan_run_append_none : ∀ (l1 l2 : List Nat) (k ct c0 : Nat),
    silence_scan_run l1 k ct = (none, c0) →
    silence_scan_run (l1 ++ l2) k ct = silence_scan_run l2 (k + l1.length) c0 := by
  intro l1
  induction l1 with
  | nil =>
      intro l2 k ct c0 h
      simp only [silence_scan_run] at h
      cases h
      simp [silence_scan_run]
  | cons c rest ih =>
      intro l2 k ct c0 h
      simp only [List.cons_append]
      rw [silence_scan_run_cons] at h ⊢
      by_cases h8 : 8 < (if c = silence_token then ct + 1 else 0)
      · rw [if_pos h8] at h
        exact absurd h (by simp)
      · rw [if_neg h8] at h ⊢
        have harith : k + (c :: rest).length = k + 1 + rest.length := by
          simp only [List.length_cons]; omega
        rw [harith, ih l2 (k + 1) _ c0 h]

/-- A scan that fires in the left part is unaffected by anything appended on
the right. -/
theorem silence_scan_run_append_some : ∀ (l1 l2 : List Nat) (k ct : Nat) (j c0 : Nat),
    silence_scan_run l1 k ct = (some j, c0) →
    silence_scan_run (l1 ++ l2) k ct = (some j, c0) := by
  intro l1
  induction l1 with
  | nil =>
      intro l2 k ct j c0 h
      simp [silence_scan_run] at h
  | cons c rest ih =>
      intro l2 k ct j c0 h
      simp only [List.cons_append]
      rw [silence_scan_run_cons] at h ⊢
      by_cases h8 : 8 < (if c = silence_token then ct + 1 else 0)
      · rw [if_pos h8] at h ⊢; exact h
      · rw [if_neg h8] at h ⊢
        exact ih l2 (k + 1) _ j c0 h

/-- Scanning a fresh run of nine silence codes fires at the ninth code, eight
positions after the start of the run. -/
theorem silence_scan_rep9 : ∀ (rest : List Nat) (k : Nat),
    silence_scan_run (List.replicate 9 silence_token ++ rest) k 0 = (some (k + 8), 9) := by
  intro rest k
  have hrep : List.replicate 9 silence_token = [83, 83, 83, 83, 83, 83, 83, 83, 83] := rfl
  rw [hrep]
  simp [silence_scan_run, silence_token]

/-- Silence-scan step on the silence code. -/
theorem silence_scan_run_cons_silence (rest : List Nat) (k ct : Nat) :
    silence_scan_run (silence_token :: rest) k ct =
      if 8 < ct + 1 then (some k, ct + 1) else silence_scan_run rest (k + 1) (ct + 1) := by
  rw [silence_scan_run_cons]; simp

/-- Silence-scan step on a non-silence code resets the counter. -/
theorem silence_scan_run_cons_other (c : Nat) (hc : c ≠ silence_token) (rest : List Nat)
    (k ct : Nat) : silence_scan_run (c :: rest) k ct = silence_scan_run rest (k + 1) 0 := by
  rw [silence_scan_run_cons]; simp [hc]

/-- A firing scan exhibits nine consecutive silence codes: either the current
counter is completed by a silence run at the very front, or a full nine-code
run occurs further right. -/
theorem silence_scan_trigger_run : ∀ (codes : List Nat) (k ct j c0 : Nat), ct ≤ 8 →
    silence_scan_run codes k ct = (some j, c0) →
    codes.take (9 - ct) = List.replicate (9 - ct) silence_token ∨
    ∃ l1 l2, codes = l1 ++ (List.replicate 9 silence_token ++ l2) := by
  intro codes
  induction codes with
  | nil => intro k ct j c0 hct h; simp [silence_scan_run] at h
  | cons c rest ih =>
      intro k ct j c0 hct h
      by_cases hc : c = silence_token
      · subst hc
        rw [silence_scan_run_cons_silence] at h
        by_cases h8 : 8 < ct + 1
        · have hct8 : ct = 8 := by omega
          subst hct8
          left
          norm_num [List.replicate]
        · rw [if_neg h8] at h
          rcases ih (k + 1) (ct + 1) j c0 (by omega) h with hl | hr
          · left
            rw [show (9 : Nat) - ct = (8 - ct) + 1 from by omega, List.replicate_succ,
              List.take_succ_cons, show (8 : Nat) - ct = 9 - (ct + 1) from by omega, hl]
          · right; rcases hr with ⟨l1, l2, h12⟩
            exact ⟨silence_token :: l1, l2, by rw [h12]; rfl⟩
      · rw [silence_scan_run_cons_other c hc] at h
        rcases ih (k + 1) 0 j c0 (by omega) h with hl | hr
        · right
          refine ⟨[c], rest.drop 9, ?_⟩
          have hsplit : rest = rest.take 9 ++ rest.drop 9 := (List.take_append_drop 9 rest).symm
          simp only [List.singleton_append]
          conv_lhs => rw [hsplit]
          rw [show (9 : Nat) - 0 = 9 from rfl] at hl
          rw [hl]
        · right; rcases hr with ⟨l1, l2, h12⟩
          exact ⟨c :: l1, l2, by rw [h12]; rfl⟩

/-- C1 counterexample: for the code sequence `[0] ++ 83⁹`, whose first run of
more than 8 silence codes has length 9 and starts at position `p = 1`, the
returned latent sequence has length 9 (the position of the ninth consecutive
silence code), not `p = 1` as the claim states. -/
theorem silence_truncation_not_at_run_start :
    (apply_silence_truncation ([0] ++ List.replicate 9 silence_token) (List.range 10)).length ≠ 1 ∧
    (apply_silence_truncation ([0] ++ List.replicate 9 silence_token) (List.range 10)).length = 9 := by
  decide

/-- C1 (amended): when the first run of more than 8 consecutive silence codes
is a run of length 9 starting at position `p` (`p` = length of the clean part
before it), the latents are truncated to length `p + 8` — the position at
which the ninth consecutive silence code is detected — and the scan stops
there; a code sequence with no run of 9 consecutive silence codes is returned
with its latents untruncated. -/
theorem silence_truncation_boundary {α : Type} :
    (∀ (pre rest : List Nat) (lat : List α), silence_scan_run pre 0 0 = (none, 0) →
        rest.head? ≠ some silence_token →
        apply_silence_truncation (pre ++ (List.replicate 9 silence_token ++ rest)) lat
          = lat.take (pre.length + 8)) ∧
    (∀ (codes : List Nat) (lat : List α),
        (¬ ∃ l1 l2, codes = l1 ++ (List.replicate 9 silence_token ++ l2)) →
        apply_silence_truncation codes lat = lat) := by
  constructor
  · intro pre rest lat hpre _hrest
    unfold apply_silence_truncation
    rw [silence_scan_run_append_none pre _ 0 0 0 hpre]
    rw [show (0 : Nat) + pre.length = pre.length from by omega]
    rw [silence_scan_rep9 rest pre.length]
  · intro codes lat hno
    unfold apply_silence_truncation
    rcases h : silence_scan_run codes 0 0 with ⟨fst, snd⟩
    rcases fst with _ | j
    · rfl
    · exfalso
      rcases silence_scan_trigger_run codes 0 0 j snd (by omega) h with hl | hr
      · rw [show (9 : Nat) - 0 = 9 from rfl] at hl
        exact hno ⟨[], codes.drop 9, by
          conv_lhs => rw [(List.take_append_drop 9 codes).symm]
          rw [hl]; rfl⟩
      · exact hno hr

/-- Witness for C1 at concrete inputs: a run of nine silence codes after one
clean code truncates the latents to nine entries, and a sequence with only
two silence codes leaves the latents untouched. -/
theorem silence_truncation_boundary_witness :
    (silence_scan_run [0] 0 0 = (none, 0) ∧
      (([5] : List Nat).head? ≠ some silence_token) ∧
      apply_silence_truncation ([0] ++ (List.replicate 9 silence_token ++ [5])) (List.range 12)
        = (List.range 12).take 9) ∧
    ((¬ ∃ l1 l2, ([83, 83] : List Nat) = l1 ++ (List.replicate 9 silence_token ++ l2)) ∧
      apply_silence_truncation [83, 83] (List.range 2) = List.range 2) := by
  have h1 : silence_scan_run [0] 0 0 = (none, 0) := by decide
  have h2 : (([5] : List Nat).head? ≠ some silence_token) := by decide
  have h4 : ¬ ∃ l1 l2, ([83, 83] : List Nat) = l1 ++ (List.replicate 9 silence_token ++ l2) := by
    rintro ⟨l1, l2, h⟩
    have := congrArg List.length h
    simp only [List.length_append, List.length_replicate, List.length_cons,
      List.length_nil] at this
    omega
  exact ⟨⟨h1, h2, (silence_truncation_boundary (α := ℕ)).1 [0] [5] (List.range 12) h1 h2⟩,
    ⟨h4, (silence_truncation_boundary (α := ℕ)).2 [83, 83] (List.range 2) h4⟩⟩

/-- `torch.linspace` always returns the requested number of steps. -/
theorem linspace_length (a b : ℚ) (n : Nat) : (linspace a b n).length = n := by
  unfold linspace
  split
  · rename_i h; simp [h]
  · simp only [List.length_map, List.length_range]

/-- Python slice `w[:-n]` for positive `n`. -/
theorem pySlice_to_negend (w : List ℚ) (n : Nat) (hn : 0 < n) :
    pySlice w 0 (-(n : Int)) = w.take (w.length - n) := by
  simp only [pySlice, pyIdx]
  rw [if_pos (by omega : -(n : Int) < 0), if_neg (by omega : ¬ ((0 : Int) < 0))]
  have e1 : (-(n : Int) + ↑w.length).toNat = w.length - n := by omega
  have e2 : min (0 : Int).toNat w.length = 0 := by omega
  rw [e1, e2, List.drop_zero]

/-- Python slice `w[L0 - n : -n]` for positive `n ≤ L0`. -/
theorem pySlice_mid_eq (w : List ℚ) (L0 n : Nat) (hn : 0 < n) (h1 : n ≤ L0) :
    pySlice w ((L0 : Int) - (n : Int)) (-(n : Int)) = (w.take (w.length - n)).drop (L0 - n) := by
  simp only [pySlice, pyIdx]
  rw [if_pos (by omega : -(n : Int) < 0), if_neg (by omega : ¬ ((L0 : Int) - (n : Int) < 0))]
  have e1 : (-(n : Int) + ↑w.length).toNat = w.length - n := by omega
  have e2 : min ((L0 : Int) - (n : Int)).toNat w.length = min (L0 - n) w.length := by omega
  rw [e1, e2]
  rcases le_or_lt (L0 - n) w.length with h | h
  · rw [min_eq_left h]
  · rw [min_eq_right h.le]
    rw [List.drop_eq_nil_of_le, List.drop_eq_nil_of_le] <;>
      simp only [List.length_take] <;> omega

/-- Python slice `w[-n:]` for positive `n`. -/
theorem pySlice_last (w : List ℚ) (n : Nat) (hn : 0 < n) :
    pySlice w (-(n : Int)) (w.length : Int) = w.drop (w.length - n) := by
  simp only [pySlice, pyIdx]
  rw [if_pos (by omega : -(n : Int) < 0), if_neg (by omega : ¬ ((w.length : Int) < 0))]
  have e1 : (-(n : Int) + ↑w.length).toNat = w.length - n := by omega
  have e2 : min (w.length : Int).toNat w.length = w.length := by omega
  rw [e1, e2, List.take_length]

/-- `handle_chunks` with a previous decode and overlap buffer, unfolded. -/
theorem handle_chunks_some (w prev o : List ℚ) (n : Nat) :
    handle_chunks w (some prev) (some o) n =
      (List.zipWith (· + ·) (List.zipWith (· * ·) o (linspace 1 0 n))
          (List.zipWith (· * ·)
            ((pySlice w ((prev.length : Int) - (n : Int)) (-(n : Int))).take n)
            (linspace 0 1 n))
        ++ (pySlice w ((prev.length : Int) - (n : Int)) (-(n : Int))).drop n,
       w, pySlice w (-(n : Int)) (w.length : Int)) := rfl

/-- `handle_chunks` on the very first chunk, unfolded. -/
theorem handle_chunks_none (w : List ℚ) (n : Nat) :
    handle_chunks w none none n =
      (pySlice w 0 (-(n : Int)), w, pySlice w (-(n : Int)) (w.length : Int)) := rfl

/-- C4: when a previous overlap buffer exists, the first `overlap_len` samples
of the emitted chunk are the previous decode's held-back tail faded linearly
from 1 to 0 plus the new chunk's head faded linearly from 0 to 1, summed
sample-wise, and the remaining samples are the raw slice; on the very first
chunk (no previous state) the emitted samples are the raw slice with no
blending. -/
theorem handle_chunks_crossfade :
    (∀ (w prev : List ℚ) (n : Nat), 0 < n → n ≤ prev.length → prev.length + n ≤ w.length →
      (handle_chunks w (some prev) (some (prev.drop (prev.length - n))) n).1.take n
        = List.zipWith (· + ·)
            (List.zipWith (· * ·) (prev.drop (prev.length - n)) (linspace 1 0 n))
            (List.zipWith (· * ·)
              ((pySlice w ((prev.length : Int) - (n : Int)) (-(n : Int))).take n)
              (linspace 0 1 n)) ∧
      (handle_chunks w (some prev) (some (prev.drop (prev.length - n))) n).1.drop n
        = (pySlice w ((prev.length : Int) - (n : Int)) (-(n : Int))).drop n) ∧
    (∀ (w : List ℚ) (n : Nat), (handle_chunks w none none n).1 = pySlice w 0 (-(n : Int))) := by
  constructor
  · intro w prev n hn h1 h2
    have hrawlen : (pySlice w ((prev.length : Int) - (n : Int)) (-(n : Int))).length
        = w.length - prev.length := by
      rw [pySlice_mid_eq w prev.length n hn h1]
      simp only [List.length_drop, List.length_take]
      omega
    have hheadlen : (List.zipWith (· + ·)
        (List.zipWith (· * ·) (prev.drop (prev.length - n)) (linspace 1 0 n))
        (List.zipWith (· * ·)
          ((pySlice w ((prev.length : Int) - (n : Int)) (-(n : Int))).take n)
          (linspace 0 1 n))).length = n := by
      simp only [List.length_zipWith, linspace_length, List.length_take, List.length_drop,
        hrawlen]
      omega
    rw [handle_chunks_some]
    exact ⟨List.take_left' hheadlen, List.drop_left' hheadlen⟩
  · intro w n
    rfl

/-- Witness for C4 at concrete inputs: a six-sample decode following a
two-sample decode with overlap 2, and an unblended first chunk. -/
theorem handle_chunks_crossfade_witness :
    (0 : Nat) < 2 ∧ (2 : Nat) ≤ ([(1 : ℚ), 2] : List ℚ).length ∧
    ([(1 : ℚ), 2] : List ℚ).length + 2 ≤ ([(1 : ℚ), 2, 3, 4, 5, 6] : List ℚ).length ∧
    (handle_chunks [(1 : ℚ), 2, 3, 4, 5, 6] (some [(1 : ℚ), 2])
        (some (([(1 : ℚ), 2] : List ℚ).drop (([(1 : ℚ), 2] : List ℚ).length - 2))) 2).1.take 2
      = List.zipWith (· + ·)
          (List.zipWith (· * ·) (([(1 : ℚ), 2] : List ℚ).drop (([(1 : ℚ), 2] : List ℚ).length - 2))
            (linspace 1 0 2))
          (List.zipWith (· * ·)
            ((pySlice ([(1 : ℚ), 2, 3, 4, 5, 6] : List ℚ)
                ((([(1 : ℚ), 2] : List ℚ).length : Int) - (2 : Int)) (-(2 : Int))).take 2)
            (linspace 0 1 2)) ∧
    (handle_chunks [(1 : ℚ), 2] none none 1).1 = pySlice ([(1 : ℚ), 2] : List ℚ) 0 (-(1 : Int)) := by
  refine ⟨by norm_num, by norm_num, by norm_num, ?_, ?_⟩
  · exact (handle_chunks_crossfade.1 [(1 : ℚ), 2, 3, 4, 5, 6] [(1 : ℚ), 2] 2
      (by norm_num) (by norm_num) (by norm_num)).1
  · exact handle_chunks_crossfade.2 [(1 : ℚ), 2] 1

/-- Unfolding of one step of the streaming loop. -/
theorem run_stream_cons (n : Nat) (w : List ℚ) (ws : List (List ℚ)) (p o : Option (List ℚ)) :
    run_stream n (w :: ws) p o
      = (handle_chunks w p o n).1
        :: run_stream n ws (some (handle_chunks w p o n).2.1)
            (some (handle_chunks w p o n).2.2) := rfl

/-- Length of the mid slice `w[L0 - n : -n]`. -/
theorem pySlice_mid_length (w : List ℚ) (L0 n : Nat) (hn : 0 < n) (h1 : n ≤ L0)
    (h2 : L0 + n ≤ w.length) :
    (pySlice w ((L0 : Int) - (n : Int)) (-(n : Int))).length = w.length - L0 := by
  rw [pySlice_mid_eq w L0 n hn h1]
  simp only [List.length_drop, List.length_take]
  omega

/-- A blended chunk has exactly the new samples of the decode: the decode
growth beyond the previous decode. -/
theorem handle_chunks_chunk_length (w prev o : List ℚ) (n : Nat) (hn : 0 < n)
    (h1 : n ≤ prev.length) (h2 : prev.length + n ≤ w.length) (ho : o.length = n) :
    (handle_chunks w (some prev) (some o) n).1.length = w.length - prev.length := by
  rw [handle_chunks_some]
  simp only [List.length_append, List.length_zipWith, linspace_length, List.length_take,
    List.length_drop, ho, pySlice_mid_length w prev.length n hn h1 h2]
  omega

/-- Along a growth chain the last decode is at least as long as the first. -/
theorem chain_len_getLastD (n : Nat) : ∀ (ws : List (List ℚ)) (w0 : List ℚ),
    List.Chain' (len_step n) (w0 :: ws) → w0.length ≤ (ws.getLastD w0).length := by
  intro ws
  induction ws with
  | nil => intro w0 _; simp [List.getLastD]
  | cons c rest ih =>
      intro w0 hch
      rw [List.chain'_cons] at hch
      have h1 : w0.length + n ≤ c.length := hch.1
      have h2 := ih c hch.2
      rw [List.getLastD_cons]
      omega

/-- Invariant of the streaming loop after the first chunk: the emitted
samples are exactly the decode growth accumulated since the decode held in
the state. -/
theorem run_stream_flatten_length (n : Nat) (hn : 0 < n) : ∀ (ws : List (List ℚ)) (w0 o : List ℚ),
    o.length = n → n ≤ w0.length →
    List.Chain' (len_step n) (w0 :: ws) →
    (run_stream n ws (some w0) (some o)).flatten.length = (ws.getLastD w0).length - w0.length := by
  intro ws
  induction ws with
  | nil => intro w0 o _ _ _; simp [run_stream, List.getLastD]
  | cons c rest ih =>
      intro w0 o ho h0 hch
      rw [List.chain'_cons] at hch
      have hstep : w0.length + n ≤ c.length := hch.1
      rw [run_stream_cons, List.flatten_cons, List.length_append]
      have hchunk := handle_chunks_chunk_length c w0 o n hn h0 hstep ho
      rw [hchunk]
      have hnew_o : ((handle_chunks c (some w0) (some o) n).2.2).length = n := by
        rw [handle_chunks_some]
        simp only [pySlice_last c n hn, List.length_drop]
        omega
      have hprev : (handle_chunks c (some w0) (some o) n).2.1 = c := by
        rw [handle_chunks_some]
      rw [hprev]
      rw [ih c (handle_chunks c (some w0) (some o) n).2.2 hnew_o (by omega) hch.2]
      rw [List.getLastD_cons]
      have := chain_len_getLastD n rest c hch.2
      omega

/-- The last element of a map over `List.range`. -/
theorem range_map_getLastD {β : Type} (m : Nat) (g : Nat → β) (d : β) (hm : 0 < m) :
    ((List.range m).map g).getLastD d = g (m - 1) := by
  cases m with
  | zero => omega
  | succ k =>
      rw [List.range_succ, List.map_append]
      simp [List.getLastD_concat]

/-- The final decode of a streaming run sees the join of all latent chunks. -/
theorem map_decode_lpj_getLastD {α : Type} (decode : List α → List ℚ) (chunks : List (List α))
    (hne : chunks ≠ []) (d : List ℚ) :
    ((latent_prefix_joins chunks).map decode).getLastD d = decode chunks.flatten := by
  unfold latent_prefix_joins
  rw [List.map_map]
  have hm : 0 < chunks.length := List.length_pos.mpr hne
  rw [range_map_getLastD _ _ _ hm]
  simp only [Function.comp]
  rw [show chunks.length - 1 + 1 = chunks.length from by omega, List.take_length]

/-- C10: every chunk yielded by `inference_stream` excludes the final
`overlap_wav_len` samples of the decode so far, including the last one, so
the concatenation of all yielded chunks of a completed streaming run is
exactly `overlap_wav_len` samples shorter than the full decode of all
accumulated latents.  The decodes are assumed to grow by at least the overlap
length at every yield (otherwise the source raises a shape error in the
in-place crossfade assignment and the run does not complete). -/
theorem streaming_holdback_length : ∀ {α : Type} (decode : List α → List ℚ)
    (latent_chunks : List (List α)) (n : Nat),
    0 < n → latent_chunks ≠ [] →
    n ≤ (((latent_prefix_joins latent_chunks).map decode).headD []).length →
    List.Chain' (len_step n) ((latent_prefix_joins latent_chunks).map decode) →
    (inference_stream_chunks decode latent_chunks n).flatten.length + n
      = (decode latent_chunks.flatten).length := by
  intro α decode chunks n hn hne hhead hch
  have hlast := map_decode_lpj_getLastD decode chunks hne []
  rcases hws : (latent_prefix_joins chunks).map decode with _ | ⟨w1, rest⟩
  · exfalso
    have hlen := congrArg List.length hws
    simp only [List.length_map, latent_prefix_joins, List.length_range, List.length_nil] at hlen
    exact hne (List.length_eq_zero.mp hlen)
  · rw [hws] at hhead hch hlast
    simp only [List.headD_cons] at hhead
    unfold inference_stream_chunks
    rw [hws, run_stream_cons, List.flatten_cons, List.length_append]
    have hw1 : (handle_chunks w1 none none n).1 = w1.take (w1.length - n) :=
      pySlice_to_negend w1 n hn
    have hc1len : (handle_chunks w1 none none n).1.length = w1.length - n := by
      rw [hw1, List.length_take]
      omega
    have hprev1 : (handle_chunks w1 none none n).2.1 = w1 := rfl
    have ho1 : (handle_chunks w1 none none n).2.2.length = n := by
      have : (handle_chunks w1 none none n).2.2 = w1.drop (w1.length - n) :=
        pySlice_last w1 n hn
      rw [this, List.length_drop]
      omega
    rw [hc1len, hprev1]
    rw [run_stream_flatten_length n hn rest w1 (handle_chunks w1 none none n).2.2 ho1 hhead hch]
    rw [List.getLastD_cons] at hlast
    have hlastlen : (rest.getLastD w1).length = (decode chunks.flatten).length := by
      rw [hlast]
    have hmono := chain_len_getLastD n rest w1 hch
    omega

/-- Witness for C10 at concrete inputs: two one-token latent chunks decoded
to two samples each, overlap 1. -/
theorem streaming_holdback_length_witness :
    (0 : Nat) < 1 ∧ ([[0], [1]] : List (List ℕ)) ≠ [] ∧
    1 ≤ (((latent_prefix_joins ([[0], [1]] : List (List ℕ))).map
        (fun l => List.replicate (2 * l.length) (0 : ℚ))).headD []).length ∧
    List.Chain' (len_step 1) ((latent_prefix_joins ([[0], [1]] : List (List ℕ))).map
        (fun l => List.replicate (2 * l.length) (0 : ℚ))) ∧
    (inference_stream_chunks (fun l => List.replicate (2 * l.length) (0 : ℚ))
        ([[0], [1]] : List (List ℕ)) 1).flatten.length + 1
      = ((fun (l : List ℕ) => List.replicate (2 * l.length) (0 : ℚ))
          (([[0], [1]] : List (List ℕ)).flatten)).length := by
  have hl : latent_prefix_joins ([[0], [1]] : List (List ℕ)) = [[0], [0, 1]] := by decide
  have hstep : len_step 1 (List.replicate (2 * ([0] : List ℕ).length) (0 : ℚ))
      (List.replicate (2 * ([0, 1] : List ℕ).length) (0 : ℚ)) := by
    simp [len_step]
  have hchain : List.Chain' (len_step 1) ((latent_prefix_joins ([[0], [1]] : List (List ℕ))).map
      (fun l => List.replicate (2 * l.length) (0 : ℚ))) := by
    rw [hl]
    simp only [List.map_cons, List.map_nil]
    exact List.chain'_cons.mpr ⟨hstep, List.chain'_singleton _⟩
  have hhead : 1 ≤ (((latent_prefix_joins ([[0], [1]] : List (List ℕ))).map
      (fun l => List.replicate (2 * l.length) (0 : ℚ))).headD []).length := by
    rw [hl]
    simp
  exact ⟨by decide, by decide, hhead, hchain,
    streaming_holdback_length _ _ 1 (by decide) (by decide) hhead hchain⟩

/-- Along a decode chain where each decode extends the previous, the first
decode is a prefix of the last. -/
theorem chain_pref_getLastD (n : Nat) : ∀ (ws : List (List ℚ)) (w0 : List ℚ),
    List.Chain' (pref_step n) (w0 :: ws) →
    (ws.getLastD w0).take w0.length = w0 ∧ w0.length ≤ (ws.getLastD w0).length := by
  intro ws
  induction ws with
  | nil => intro w0 _; simp [List.getLastD]
  | cons c rest ih =>
      intro w0 hch
      rw [List.chain'_cons] at hch
      have h01 : c.take w0.length = w0 := hch.1.1
      have h0len : w0.length + n ≤ c.length := hch.1.2
      have hrec := ih c hch.2
      rw [List.getLastD_cons]
      constructor
      · have : (rest.getLastD c).take w0.length
            = ((rest.getLastD c).take c.length).take w0.length := by
          rw [List.take_take, min_eq_left (by omega)]
        rw [this, hrec.1, h01]
      · omega

/-- Invariant of the streaming loop after the first chunk: when every decode
extends the previous one and all are prefixes of the final decode `W`, the
emitted samples are exactly the specification's reconstruction tail —
alternating crossfade blends and verbatim regions of `W`. -/
theorem run_stream_spec_recon (n : Nat) (hn : 0 < n) (W : List ℚ) :
    ∀ (ws : List (List ℚ)) (w0 : List ℚ),
    n ≤ w0.length →
    List.Chain' (pref_step n) (w0 :: ws) →
    W.take (ws.getLastD w0).length = ws.getLastD w0 →
    (run_stream n ws (some w0) (some (w0.drop (w0.length - n)))).flatten
      = spec_recon_go W n w0 ws := by
  intro ws
  induction ws with
  | nil => intro w0 _ _ _; simp [run_stream, spec_recon_go]
  | cons c rest ih =>
      intro w0 h0 hch hW
      rw [List.chain'_cons] at hch
      have hpref : c.take w0.length = w0 := hch.1.1
      have hgrow : w0.length + n ≤ c.length := hch.1.2
      rw [List.getLastD_cons] at hW
      -- c is a prefix of the final decode W
      have hlastc := chain_pref_getLastD n rest c hch.2
      have hcW : W.take c.length = c := by
        have : W.take c.length = (W.take (rest.getLastD c).length).take c.length := by
          rw [List.take_take, min_eq_left hlastc.2]
        rw [this, hW, hlastc.1]
      -- the raw (pre-blend) slice of the new decode
      have hraw : pySlice c ((w0.length : Int) - (n : Int)) (-(n : Int))
          = (c.drop (w0.length - n)).take (c.length - w0.length) := by
        rw [pySlice_mid_eq c w0.length n hn h0, List.drop_take]
        congr 1
        omega
      have hrawtake : (pySlice c ((w0.length : Int) - (n : Int)) (-(n : Int))).take n
          = (c.take w0.length).drop (w0.length - n) := by
        rw [hraw, List.take_take, min_eq_left (by omega), List.drop_take]
        congr 1
        omega
      have hrawdrop : (pySlice c ((w0.length : Int) - (n : Int)) (-(n : Int))).drop n
          = (W.take (c.length - n)).drop w0.length := by
        rw [pySlice_mid_eq c w0.length n hn h0, List.drop_drop]
        have hWc : W.take (c.length - n) = c.take (c.length - n) := by
          have : W.take (c.length - n) = (W.take c.length).take (c.length - n) := by
            rw [List.take_take, min_eq_left (by omega)]
          rw [this, hcW]
        rw [hWc]
        congr 1
        omega
      -- the recursive state is the held-back tail of the new decode
      have hsnd : (handle_chunks c (some w0) (some (w0.drop (w0.length - n))) n).2.2
          = c.drop (c.length - n) := pySlice_last c n hn
      have hfst : (handle_chunks c (some w0) (some (w0.drop (w0.length - n))) n).2.1 = c := rfl
      rw [run_stream_cons, List.flatten_cons, hfst, hsnd]
      rw [ih c (by omega) hch.2 hW]
      show (handle_chunks c (some w0) (some (w0.drop (w0.length - n))) n).1
          ++ spec_recon_go W n c rest = spec_recon_go W n w0 (c :: rest)
      rw [handle_chunks_some]
      show (List.zipWith (· + ·)
          (List.zipWith (· * ·) (w0.drop (w0.length - n)) (linspace 1 0 n))
          (List.zipWith (· * ·)
            ((pySlice c ((w0.length : Int) - (n : Int)) (-(n : Int))).take n)
            (linspace 0 1 n))
        ++ (pySlice c ((w0.length : Int) - (n : Int)) (-(n : Int))).drop n)
        ++ spec_recon_go W n c rest = spec_recon_go W n w0 (c :: rest)
      rw [hrawtake, hrawdrop]
      simp only [spec_recon_go, spec_blend, List.append_assoc]

/-- C3: the concatenation of all chunks yielded by `inference_stream` equals
the specification's reconstructed signal: non-overlap regions taken verbatim
from the single non-streaming decode of all accumulated latents, overlap
regions the linear blend of the previous decode's faded-out tail and the next
decode's faded-in head.  The vocoder is an external network; the comparison
with a single full decode presupposes that each intermediate decode is a
prefix of the final one, which is the `pref_step` chain hypothesis, and the
decodes grow by at least the overlap per yield as in a completed run. -/
theorem streaming_reconstruction_matches_spec : ∀ {α : Type} (decode : List α → List ℚ)
    (latent_chunks : List (List α)) (n : Nat),
    0 < n → latent_chunks ≠ [] →
    n ≤ (((latent_prefix_joins latent_chunks).map decode).headD []).length →
    List.Chain' (pref_step n) ((latent_prefix_joins latent_chunks).map decode) →
    (inference_stream_chunks decode latent_chunks n).flatten
      = spec_reconstruction (decode latent_chunks.flatten)
          ((latent_prefix_joins latent_chunks).map decode) n := by
  intro α decode chunks n hn hne hhead hch
  have hlast := map_decode_lpj_getLastD decode chunks hne []
  rcases hws : (latent_prefix_joins chunks).map decode with _ | ⟨w1, rest⟩
  · exfalso
    have hlen := congrArg List.length hws
    simp only [List.length_map, latent_prefix_joins, List.length_range, List.length_nil] at hlen
    exact hne (List.length_eq_zero.mp hlen)
  · rw [hws] at hhead hch hlast
    simp only [List.headD_cons] at hhead
    rw [List.getLastD_cons] at hlast
    have hw1W := chain_pref_getLastD n rest w1 hch
    have hW1 : (decode chunks.flatten).take w1.length = w1 := by
      rw [← hlast]; exact hw1W.1
    unfold inference_stream_chunks
    rw [hws, run_stream_cons, List.flatten_cons]
    have hc1 : (handle_chunks w1 none none n).1 = w1.take (w1.length - n) :=
      pySlice_to_negend w1 n hn
    have hprev1 : (handle_chunks w1 none none n).2.1 = w1 := rfl
    have hsnd1 : (handle_chunks w1 none none n).2.2 = w1.drop (w1.length - n) :=
      pySlice_last w1 n hn
    rw [hc1, hprev1, hsnd1]
    rw [run_stream_spec_recon n hn (decode chunks.flatten) rest w1 hhead hch
      (by rw [hlast, List.take_length])]
    show w1.take (w1.length - n) ++ spec_recon_go (decode chunks.flatten) n w1 rest
      = spec_reconstruction (decode chunks.flatten) (w1 :: rest) n
    have htake : (decode chunks.flatten).take (w1.length - n) = w1.take (w1.length - n) := by
      have : (decode chunks.flatten).take (w1.length - n)
          = ((decode chunks.flatten).take w1.length).take (w1.length - n) := by
        rw [List.take_take, min_eq_left (by omega)]
      rw [this, hW1]
    simp only [spec_reconstruction]
    rw [htake]

/-- Witness for C3 at concrete inputs: two one-token latent chunks decoded
prefix-consistently to two and four ramp samples, overlap 1. -/
theorem streaming_reconstruction_matches_spec_witness :
    (0 : Nat) < 1 ∧ ([[0], [1]] : List (List ℕ)) ≠ [] ∧
    1 ≤ (((latent_prefix_joins ([[0], [1]] : List (List ℕ))).map
        (fun l => (List.range (2 * l.length)).map (fun (i : Nat) => (i : ℚ)))).headD []).length ∧
    List.Chain' (pref_step 1) ((latent_prefix_joins ([[0], [1]] : List (List ℕ))).map
        (fun l => (List.range (2 * l.length)).map (fun (i : Nat) => (i : ℚ)))) ∧
    (inference_stream_chunks
        (fun l => (List.range (2 * l.length)).map (fun (i : Nat) => (i : ℚ)))
        ([[0], [1]] : List (List ℕ)) 1).flatten
      = spec_reconstruction
          ((fun (l : List ℕ) => (List.range (2 * l.length)).map (fun (i : Nat) => (i : ℚ)))
            (([[0], [1]] : List (List ℕ)).flatten))
          ((latent_prefix_joins ([[0], [1]] : List (List ℕ))).map
            (fun l => (List.range (2 * l.length)).map (fun (i : Nat) => (i : ℚ)))) 1 := by
  have hl : latent_prefix_joins ([[0], [1]] : List (List ℕ)) = [[0], [0, 1]] := by decide
  have hstep : pref_step 1
      ((List.range (2 * ([0] : List ℕ).length)).map (fun (i : Nat) => (i : ℚ)))
      ((List.range (2 * ([0, 1] : List ℕ).length)).map (fun (i : Nat) => (i : ℚ))) := by
    constructor
    · decide
    · decide
  have hchain : List.Chain' (pref_step 1) ((latent_prefix_joins ([[0], [1]] : List (List ℕ))).map
      (fun l => (List.range (2 * l.length)).map (fun (i : Nat) => (i : ℚ)))) := by
    rw [hl]
    simp only [List.map_cons, List.map_nil]
    exact List.chain'_cons.mpr ⟨hstep, List.chain'_singleton _⟩
  have hhead : 1 ≤ (((latent_prefix_joins ([[0], [1]] : List (List ℕ))).map
      (fun l => (List.range (2 * l.length)).map (fun (i : Nat) => (i : ℚ)))).headD []).length := by
    rw [hl]
    simp
  exact ⟨by decide, by decide, hhead, hchain,
    streaming_reconstruction_matches_spec _ _ 1 (by decide) (by decide) hhead hchain⟩

/-- Dict lookup on a cons cell. -/
theorem pyGet_cons {V : Type} (k : String) (v : V) (d : List (String × V)) (q : String) :
    pyGet ((k, v) :: d) q = if k = q then some v else pyGet d q := rfl

/-- Lookup of an absent key. -/
theorem pyGet_eq_none {V : Type} : ∀ (d : List (String × V)) (q : String),
    q ∉ d.map Prod.fst → pyGet d q = none := by
  intro d
  induction d with
  | nil => intro q _; rfl
  | cons p rest ih =>
      intro q hq
      simp only [List.map_cons, List.mem_cons, not_or] at hq
      rw [pyGet_cons, if_neg (fun h => hq.1 h.symm)]
      exact ih q hq.2

/-- Lookup in a concatenation, key present on the left. -/
theorem pyGet_append_left {V : Type} : ∀ (l1 l2 : List (String × V)) (q : String) (v : V),
    pyGet l1 q = some v → pyGet (l1 ++ l2) q = some v := by
  intro l1
  induction l1 with
  | nil => intro l2 q v h; exact absurd h (by simp [pyGet])
  | cons p rest ih =>
      intro l2 q v h
      rcases p with ⟨k, w⟩
      rw [List.cons_append, pyGet_cons]
      rw [pyGet_cons] at h
      by_cases hk : k = q
      · rw [if_pos hk] at h ⊢; exact h
      · rw [if_neg hk] at h ⊢; exact ih l2 q v h

/-- Lookup in a concatenation, key absent on the left. -/
theorem pyGet_append_right {V : Type} : ∀ (l1 l2 : List (String × V)) (q : String),
    pyGet l1 q = none → pyGet (l1 ++ l2) q = pyGet l2 q := by
  intro l1
  induction l1 with
  | nil => intro l2 q _; rfl
  | cons p rest ih =>
      intro l2 q h
      rcases p with ⟨k, w⟩
      rw [List.cons_append, pyGet_cons]
      rw [pyGet_cons] at h
      by_cases hk : k = q
      · rw [if_pos hk] at h; exact absurd h (by simp)
      · rw [if_neg hk] at h ⊢; exact ih l2 q h

/-- Lookup after the in-place update pass of `pySet`. -/
theorem pyGet_map_upd {V : Type} (k : String) (v : V) :
    ∀ (d : List (String × V)) (q : String),
    pyGet (d.map (fun p => if p.1 = k then (k, v) else p)) q
      = if q = k then (pyGet d k).map (fun _ => v) else pyGet d q := by
  intro d
  induction d with
  | nil => intro q; simp [pyGet]
  | cons p rest ih =>
      intro q
      rcases p with ⟨k1, w⟩
      simp only [List.map_cons, pyGet_cons]
      by_cases hk1 : k1 = k <;> by_cases hq : q = k <;> by_cases hq1 : k1 = q <;>
        simp_all [pyGet_cons]

/-- Python dict assignment: the written key reads back the value, others are
unchanged. -/
theorem pyGet_pySet {V : Type} (d : List (String × V)) (k : String) (v : V) (q : String) :
    pyGet (pySet d k v) q = if q = k then some v else pyGet d q := by
  unfold pySet
  by_cases hs : (pyGet d k).isSome
  · rw [if_pos hs, pyGet_map_upd]
    by_cases hq : q = k
    · rw [if_pos hq, if_pos hq]
      rcases Option.isSome_iff_exists.mp hs with ⟨w, hw⟩
      rw [hw]
      rfl
    · rw [if_neg hq, if_neg hq]
  · rw [if_neg hs]
    have hnone : pyGet d k = none := by
      rcases h : pyGet d k with _ | w
      · rfl
      · rw [h] at hs; exact absurd rfl hs
    by_cases hq : q = k
    · subst hq
      rw [if_pos rfl, pyGet_append_right d _ q hnone, pyGet_cons, if_pos rfl]
    · rw [if_neg hq]
      rcases h : pyGet d q with _ | w
      · rw [pyGet_append_right d _ q h, pyGet_cons, if_neg (fun hh => hq hh.symm)]
        rfl
      · rw [pyGet_append_left d _ q w h]

/-- Python dict deletion: the deleted key reads back nothing, others are
unchanged. -/
theorem pyGet_pyDel {V : Type} (k : String) : ∀ (d : List (String × V)) (q : String),
    pyGet (pyDel d k) q = if q = k then none else pyGet d q := by
  intro d
  induction d with
  | nil => intro q; simp [pyDel, pyGet]
  | cons p rest ih =>
      intro q
      rcases p with ⟨k1, w⟩
      by_cases hk1 : k1 = k
      · have hdel : pyDel ((k1, w) :: rest) k = pyDel rest k := by
          simp [pyDel, hk1]
        rw [hdel, ih q, pyGet_cons]
        by_cases hq : q = k <;> by_cases hq1 : k1 = q <;> simp_all
      · have hdel : pyDel ((k1, w) :: rest) k = (k1, w) :: pyDel rest k := by
          simp [pyDel, hk1]
        rw [hdel, pyGet_cons, ih q]
        by_cases hq : q = k <;> by_cases hq1 : k1 = q <;> simp_all [pyGet_cons]

/-- Renamed keys produced by a cons, unfolded. -/
theorem ckpt_new_keys_cons {V : Type} (k : String) (v : V) (rest : List (String × V)) :
    ckpt_new_keys ((k, v) :: rest)
      = if starts_with_xtts k then strip_xtts k :: ckpt_new_keys rest
        else ckpt_new_keys rest := by
  by_cases hx : starts_with_xtts k <;> simp [ckpt_new_keys, hx]

/-- The pure checkpoint transformation on a cons, unfolded. -/
theorem ckpt_spec_transform_cons {V : Type} (k : String) (v : V) (rest : List (String × V)) :
    ckpt_spec_transform ((k, v) :: rest)
      = if ignore_keys.contains (first_component (ckpt_key_transform k))
          then ckpt_spec_transform rest
        else (ckpt_key_transform k, v) :: ckpt_spec_transform rest := by
  by_cases hig : first_component (ckpt_key_transform k) ∈ ignore_keys
  · have hc : ignore_keys.contains (first_component (ckpt_key_transform k)) = true := by
      simpa using hig
    simp [ckpt_spec_transform, hig, hc]
  · have hc : ignore_keys.contains (first_component (ckpt_key_transform k)) = false := by
      simpa using hig
    simp [ckpt_spec_transform, hig, hc]

/-- Loop body on a non-wrapped key belonging to a training-only submodule. -/
theorem ckpt_process_key_not_xtts_ignored {V : Type} (d : List (String × V)) (k : String)
    (hx : starts_with_xtts k = false)
    (hig : first_component k ∈ ignore_keys) :
    ckpt_process_key d k = pyDel d k := by
  simp [ckpt_process_key, hx, hig]

/-- Loop body on a non-wrapped key that is kept: the dict is untouched. -/
theorem ckpt_process_key_not_xtts_kept {V : Type} (d : List (String × V)) (k : String)
    (hx : starts_with_xtts k = false)
    (hig : first_component k ∉ ignore_keys) :
    ckpt_process_key d k = d := by
  simp [ckpt_process_key, hx, hig]

/-- Loop body on a wrapped key whose renamed form is training-only: the value
is first written under the renamed key, then both entries are deleted. -/
theorem ckpt_process_key_xtts_ignored {V : Type} (d : List (String × V)) (k : String) (v : V)
    (hx : starts_with_xtts k = true) (hv : pyGet d k = some v)
    (hig : first_component (strip_xtts k) ∈ ignore_keys) :
    ckpt_process_key d k = pyDel (pyDel (pySet d (strip_xtts k) v) k) (strip_xtts k) := by
  simp [ckpt_process_key, hx, hv, hig]

/-- Loop body on a wrapped key that is kept: the value moves to the renamed
key and the wrapped entry is deleted. -/
theorem ckpt_process_key_xtts_kept {V : Type} (d : List (String × V)) (k : String) (v : V)
    (hx : starts_with_xtts k = true) (hv : pyGet d k = some v)
    (hig : first_component (strip_xtts k) ∉ ignore_keys) :
    ckpt_process_key d k = pyDel (pySet d (strip_xtts k) v) k := by
  simp [ckpt_process_key, hx, hv, hig]

/-- Invariant of the checkpoint-adaptation loop: with collision-free keys, the
dict after processing the pending snapshot keys looks up exactly like the
already-processed accumulator followed by the pure transformation of the
pending entries. -/
theorem ckpt_loop_lookup {V : Type} : ∀ (todo acc d : List (String × V)),
    (∀ q, pyGet d q = pyGet (todo ++ acc) q) →
    CkptKeysOK todo acc →
    ∀ q, pyGet ((todo.map Prod.fst).foldl ckpt_process_key d) q
        = pyGet (acc ++ ckpt_spec_transform todo) q := by
  intro todo
  induction todo with
  | nil =>
      intro acc d hd _ q
      simp only [List.map_nil, List.foldl_nil]
      rw [hd q]
      simp [ckpt_spec_transform]
  | cons p rest ih =>
      rcases p with ⟨k, v⟩
      intro acc d hd hK q
      obtain ⟨hraw, hnew, hrawnew, haccraw, haccnew⟩ := hK
      simp only [List.map_cons, List.nodup_cons] at hraw
      have hk_rest : k ∉ rest.map Prod.fst := hraw.1
      have hk_head : k ∈ ((k, v) :: rest).map Prod.fst := by simp
      have hmem_raw : ∀ s1, s1 ∈ rest.map Prod.fst → s1 ∈ ((k, v) :: rest).map Prod.fst := by
        intro s1 hs1; simp [hs1]
      have hk_acc : k ∉ acc.map Prod.fst := fun h => haccraw k h hk_head
      have hpk : pyGet d k = some v := by
        rw [hd k, List.cons_append, pyGet_cons, if_pos rfl]
      have hd' : ∀ q1, pyGet d q1 = pyGet ((k, v) :: (rest ++ acc)) q1 := by
        intro q1; rw [hd q1, List.cons_append]
      have hget_ra_none : ∀ s1, s1 ∉ rest.map Prod.fst → s1 ∉ acc.map Prod.fst →
          pyGet (rest ++ acc) s1 = none := by
        intro s1 h1 h2
        rw [pyGet_append_right rest acc s1 (pyGet_eq_none rest s1 h1)]
        exact pyGet_eq_none acc s1 h2
      simp only [List.map_cons, List.foldl_cons]
      by_cases hx : starts_with_xtts k
      · have hnew_cons : ckpt_new_keys ((k, v) :: rest)
            = strip_xtts k :: ckpt_new_keys rest := by
          rw [ckpt_new_keys_cons, if_pos hx]
        rw [hnew_cons] at hnew hrawnew haccnew
        have hnknodup := List.nodup_cons.mp hnew
        have hmem_new : ∀ s1, s1 ∈ ckpt_new_keys rest →
            s1 ∈ strip_xtts k :: ckpt_new_keys rest := by
          intro s1 hs1; simp [hs1]
        have hnk_head : strip_xtts k ∈ strip_xtts k :: ckpt_new_keys rest := by simp
        have hnk_k : strip_xtts k ≠ k := by
          intro h
          exact hrawnew k hk_head (List.mem_cons.mpr (Or.inl h.symm))
        have hnk_rest : strip_xtts k ∉ rest.map Prod.fst := by
          intro h
          exact hrawnew (strip_xtts k) (hmem_raw _ h) hnk_head
        have hnk_acc : strip_xtts k ∉ acc.map Prod.fst := by
          intro h
          exact haccnew (strip_xtts k) h hnk_head
        have hd1 : ∀ q1, pyGet (pyDel (pySet d (strip_xtts k) v) k) q1
            = if q1 = k then none else if q1 = strip_xtts k then some v else pyGet d q1 := by
          intro q1
          rw [pyGet_pyDel, pyGet_pySet]
        have hktr : ckpt_key_transform k = strip_xtts k := by
          simp [ckpt_key_transform, hx]
        by_cases hig : first_component (strip_xtts k) ∈ ignore_keys
        · rw [ckpt_process_key_xtts_ignored d k v hx hpk hig]
          have hKrest : CkptKeysOK rest acc :=
            ⟨hraw.2, hnknodup.2,
             fun s1 hs1 hcon => hrawnew s1 (hmem_raw s1 hs1) (hmem_new s1 hcon),
             fun s1 hs1 hcon => haccraw s1 hs1 (hmem_raw s1 hcon),
             fun s1 hs1 hcon => haccnew s1 hs1 (hmem_new s1 hcon)⟩
          have hdrec : ∀ q1,
              pyGet (pyDel (pyDel (pySet d (strip_xtts k) v) k) (strip_xtts k)) q1
              = pyGet (rest ++ acc) q1 := by
            intro q1
            rw [pyGet_pyDel]
            by_cases h1 : q1 = strip_xtts k
            · rw [if_pos h1, h1, hget_ra_none (strip_xtts k) hnk_rest hnk_acc]
            · rw [if_neg h1, hd1 q1, if_neg h1]
              by_cases h2 : q1 = k
              · rw [if_pos h2, h2, hget_ra_none k hk_rest hk_acc]
              · rw [if_neg h2, hd' q1, pyGet_cons, if_neg (Ne.symm h2)]
          rw [ih acc _ hdrec hKrest q]
          have hspec : ckpt_spec_transform ((k, v) :: rest) = ckpt_spec_transform rest := by
            rw [ckpt_spec_transform_cons, hktr, if_pos (by simpa using hig)]
          rw [hspec]
        · rw [ckpt_process_key_xtts_kept d k v hx hpk hig]
          have hKrest : CkptKeysOK rest (acc ++ [(strip_xtts k, v)]) := by
            refine ⟨hraw.2, hnknodup.2,
              fun s1 hs1 hcon => hrawnew s1 (hmem_raw s1 hs1) (hmem_new s1 hcon), ?_, ?_⟩
            · intro s1 hs1
              simp only [List.map_append, List.map_cons, List.map_nil, List.mem_append,
                List.mem_cons, List.not_mem_nil, or_false] at hs1
              rcases hs1 with hs1 | hs1
              · exact fun hcon => haccraw s1 hs1 (hmem_raw s1 hcon)
              · subst hs1; exact hnk_rest
            · intro s1 hs1
              simp only [List.map_append, List.map_cons, List.map_nil, List.mem_append,
                List.mem_cons, List.not_mem_nil, or_false] at hs1
              rcases hs1 with hs1 | hs1
              · exact fun hcon => haccnew s1 hs1 (hmem_new s1 hcon)
              · subst hs1; exact hnknodup.1
          have hdrec : ∀ q1, pyGet (pyDel (pySet d (strip_xtts k) v) k) q1
              = pyGet (rest ++ (acc ++ [(strip_xtts k, v)])) q1 := by
            intro q1
            rw [hd1 q1]
            by_cases h2 : q1 = k
            · rw [if_pos h2, h2]
              symm
              rw [pyGet_append_right rest _ k (pyGet_eq_none rest k hk_rest)]
              rw [pyGet_append_right acc _ k (pyGet_eq_none acc k hk_acc)]
              rw [pyGet_cons, if_neg hnk_k]
              rfl
            · rw [if_neg h2]
              by_cases h1 : q1 = strip_xtts k
              · rw [if_pos h1, h1]
                symm
                rw [pyGet_append_right rest _ _ (pyGet_eq_none rest _ hnk_rest)]
                rw [pyGet_append_right acc _ _ (pyGet_eq_none acc _ hnk_acc)]
                rw [pyGet_cons, if_pos rfl]
              · rw [if_neg h1, hd' q1, pyGet_cons, if_neg (Ne.symm h2)]
                rcases hra : pyGet (rest ++ acc) q1 with _ | w
                · rw [← List.append_assoc]
                  rw [pyGet_append_right (rest ++ acc) _ q1 hra]
                  rw [pyGet_cons, if_neg (Ne.symm h1)]
                  rfl
                · rw [← List.append_assoc]
                  rw [pyGet_append_left (rest ++ acc) _ q1 w hra]
          rw [ih (acc ++ [(strip_xtts k, v)]) _ hdrec hKrest q]
          have hspec : ckpt_spec_transform ((k, v) :: rest)
              = (strip_xtts k, v) :: ckpt_spec_transform rest := by
            rw [ckpt_spec_transform_cons, hktr, if_neg (by simpa using hig)]
          rw [hspec, List.append_assoc, List.singleton_append]
      · have hxf : starts_with_xtts k = false := by
          simpa using hx
        have hnew_cons : ckpt_new_keys ((k, v) :: rest) = ckpt_new_keys rest := by
          rw [ckpt_new_keys_cons, if_neg hx]
        rw [hnew_cons] at hnew hrawnew haccnew
        have hktr : ckpt_key_transform k = k := by
          simp [ckpt_key_transform, hxf]
        by_cases hig : first_component k ∈ ignore_keys
        · rw [ckpt_process_key_not_xtts_ignored d k hxf hig]
          have hKrest : CkptKeysOK rest acc :=
            ⟨hraw.2, hnew,
             fun s1 hs1 hcon => hrawnew s1 (hmem_raw s1 hs1) hcon,
             fun s1 hs1 hcon => haccraw s1 hs1 (hmem_raw s1 hcon),
             fun s1 hs1 hcon => haccnew s1 hs1 hcon⟩
          have hdrec : ∀ q1, pyGet (pyDel d k) q1 = pyGet (rest ++ acc) q1 := by
            intro q1
            rw [pyGet_pyDel]
            by_cases h2 : q1 = k
            · rw [if_pos h2, h2, hget_ra_none k hk_rest hk_acc]
            · rw [if_neg h2, hd' q1, pyGet_cons, if_neg (Ne.symm h2)]
          rw [ih acc _ hdrec hKrest q]
          have hspec : ckpt_spec_transform ((k, v) :: rest) = ckpt_spec_transform rest := by
            rw [ckpt_spec_transform_cons, hktr, if_pos (by simpa using hig)]
          rw [hspec]
        · rw [ckpt_process_key_not_xtts_kept d k hxf hig]
          have hKrest : CkptKeysOK rest (acc ++ [(k, v)]) := by
            refine ⟨hraw.2, hnew,
              fun s1 hs1 hcon => hrawnew s1 (hmem_raw s1 hs1) hcon, ?_, ?_⟩
            · intro s1 hs1
              simp only [List.map_append, List.map_cons, List.map_nil, List.mem_append,
                List.mem_cons, List.not_mem_nil, or_false] at hs1
              rcases hs1 with hs1 | hs1
              · exact fun hcon => haccraw s1 hs1 (hmem_raw s1 hcon)
              · subst hs1; exact hk_rest
            · intro s1 hs1
              simp only [List.map_append, List.map_cons, List.map_nil, List.mem_append,
                List.mem_cons, List.not_mem_nil, or_false] at hs1
              rcases hs1 with hs1 | hs1
              · exact fun hcon => haccnew s1 hs1 hcon
              · intro hcon
                rw [hs1] at hcon
                exact hrawnew k hk_head hcon
          have hdrec : ∀ q1, pyGet d q1 = pyGet (rest ++ (acc ++ [(k, v)])) q1 := by
            intro q1
            by_cases h2 : q1 = k
            · rw [h2, hpk]
              symm
              rw [pyGet_append_right rest _ k (pyGet_eq_none rest k hk_rest)]
              rw [pyGet_append_right acc _ k (pyGet_eq_none acc k hk_acc)]
              rw [pyGet_cons, if_pos rfl]
            · rw [hd' q1, pyGet_cons, if_neg (Ne.symm h2)]
              rcases hra : pyGet (rest ++ acc) q1 with _ | w
              · rw [← List.append_assoc]
                rw [pyGet_append_right (rest ++ acc) _ q1 hra]
                rw [pyGet_cons, if_neg (Ne.symm h2)]
                rfl
              · rw [← List.append_assoc]
                rw [pyGet_append_left (rest ++ acc) _ q1 w hra]
          rw [ih (acc ++ [(k, v)]) _ hdrec hKrest q]
          have hspec : ckpt_spec_transform ((k, v) :: rest)
              = (k, v) :: ckpt_spec_transform rest := by
            rw [ckpt_spec_transform_cons, hktr, if_neg (by simpa using hig)]
          rw [hspec, List.append_assoc, List.singleton_append]

/-- C7 counterexample: `str.replace` removes every occurrence of `"xtts."`,
not only the leading one, so the key `"xtts.xtts.attn"` is stored under
`"attn"` and not under `"xtts.attn"` as the claim states; moreover a renamed
key overwrites an existing entry, so with both `"gpt.w"` and `"xtts.gpt.w"`
present the untouched key `"gpt.w"` does not keep its original tensor. -/
theorem checkpoint_rename_strips_all_occurrences :
    (¬ pyGet (get_compatible_checkpoint_state_dict [("xtts.xtts.attn", (1 : Int))]) "xtts.attn"
        = some 1) ∧
    pyGet (get_compatible_checkpoint_state_dict [("xtts.xtts.attn", (1 : Int))]) "xtts.attn"
      = none ∧
    pyGet (get_compatible_checkpoint_state_dict [("xtts.xtts.attn", (1 : Int))]) "attn"
      = some 1 ∧
    (¬ pyGet (get_compatible_checkpoint_state_dict
        [("gpt.w", (5 : Int)), ("xtts.gpt.w", (7 : Int))]) "gpt.w" = some 5) ∧
    pyGet (get_compatible_checkpoint_state_dict
        [("gpt.w", (5 : Int)), ("xtts.gpt.w", (7 : Int))]) "gpt.w" = some 7 := by
  decide

/-- C7 (amended): when the original keys together with the renamed keys are
pairwise distinct — true of real checkpoints, where either every module key
carries the legacy `"xtts."` wrapper or none does — the returned mapping is
the pure transformation of the entries: every key starting with `"xtts."` is
renamed by deleting all occurrences of that substring (Python `str.replace`),
every key whose first dot component after renaming is a training-only
submodule name is dropped, and every other key keeps its tensor. -/
theorem get_compatible_checkpoint_lookup {V : Type} (checkpoint : List (String × V))
    (hnd : ((checkpoint.map Prod.fst) ++ ckpt_new_keys checkpoint).Nodup) :
    ∀ q, pyGet (get_compatible_checkpoint_state_dict checkpoint) q
        = pyGet (ckpt_spec_transform checkpoint) q := by
  intro q
  rw [List.nodup_append] at hnd
  have hK : CkptKeysOK checkpoint [] :=
    ⟨hnd.1, hnd.2.1, fun s hs hcon => hnd.2.2 hs hcon,
     fun s hs => by simp at hs, fun s hs => by simp at hs⟩
  have h := ckpt_loop_lookup checkpoint [] checkpoint
    (fun q1 => by rw [List.append_nil]) hK q
  rw [List.nil_append] at h
  exact h

/-- Witness for C7 at a concrete checkpoint: a wrapped model key, a wrapped
dvae key (dropped) and a plain key. -/
theorem get_compatible_checkpoint_lookup_witness :
    ((([("xtts.gpt.w", (1 : Int)), ("xtts.dvae.e", 2), ("hifi.w", 3)].map Prod.fst)
      ++ ckpt_new_keys [("xtts.gpt.w", (1 : Int)), ("xtts.dvae.e", 2), ("hifi.w", 3)]).Nodup) ∧
    pyGet (get_compatible_checkpoint_state_dict
        [("xtts.gpt.w", (1 : Int)), ("xtts.dvae.e", 2), ("hifi.w", 3)]) "gpt.w"
      = pyGet (ckpt_spec_transform
        [("xtts.gpt.w", (1 : Int)), ("xtts.dvae.e", 2), ("hifi.w", 3)]) "gpt.w" := by
  have hnd : ((([("xtts.gpt.w", (1 : Int)), ("xtts.dvae.e", 2), ("hifi.w", 3)].map Prod.fst)
      ++ ckpt_new_keys [("xtts.gpt.w", (1 : Int)), ("xtts.dvae.e", 2), ("hifi.w", 3)]).Nodup) := by
    decide
  exact ⟨hnd, get_compatible_checkpoint_lookup _ hnd "gpt.w"⟩
